import Mathlib

/-!
Verification development for the `ajs_helper` repository.

The Python modules `ajs_rel_logic.py`, `ajs_inout_logic.py` and
`ajs_depend_logic.py` are shallowly embedded below.  Python strings are
`String`, Python lists are `List`, Python dicts are association lists
(`VarTable`) with in-place update, Python sets are duplicate-free lists in
insertion order.  Worklist loops that terminate in Python for extrinsic
reasons are given an explicit fuel argument and return `Option`; running out
of fuel yields `none`, so every theorem about a loop result is conditional on
the loop having terminated within the given fuel.
-/

namespace AjsHelper

/-! ## Python string primitives (faithful re-implementations) -/

def ofChars (l : List Char) : String := String.mk l

def isPyWs (c : Char) : Bool :=
  c = ' ' ∨ c = '\t' ∨ c = '\n' ∨ c = '\r' ∨ c = '\x0b' ∨ c = '\x0c'

def stripBoth (p : Char → Bool) (l : List Char) : List Char :=
  ((l.dropWhile p).reverse.dropWhile p).reverse

-- Python str.strip() (whitespace form).
def pyStrip (s : String) : String := ofChars (stripBoth isPyWs s.data)

-- Python str.strip('/') .
def stripSlashes (s : String) : String := ofChars (stripBoth (fun c => c = '/') s.data)

-- Python str.rstrip('/') .
def rstripSlash (s : String) : String :=
  ofChars ((s.data.reverse.dropWhile (fun c => c = '/')).reverse)

-- Python quote stripping str.strip("'\"") .
def quoteChars : List Char := "'\"".data

def stripQuotes (s : String) : String :=
  ofChars (stripBoth (fun c => c ∈ quoteChars) s.data)

def containsChar (c : Char) (s : String) : Bool := s.data.any (fun x => x = c)

def startsWithS (s pre : String) : Bool := pre.data.isPrefixOf s.data

def endsWithS (s suf : String) : Bool := suf.data.isSuffixOf s.data

def listHasInfix (needle : List Char) : List Char → Bool
  | [] => needle.isEmpty
  | l@(_ :: rest) => needle.isPrefixOf l || listHasInfix needle rest

-- Python substring membership `needle in hay`.
def substrIn (needle hay : String) : Bool := listHasInfix needle.data hay.data

def splitCharAux (c : Char) : List Char → List Char → List (List Char)
  | [], acc => [acc.reverse]
  | x :: xs, acc =>
    if x = c then acc.reverse :: splitCharAux c xs [] else splitCharAux c xs (x :: acc)

-- Python str.split(sep) for a one-character separator (keeps empty fields).
def splitChar (c : Char) (s : String) : List String := (splitCharAux c s.data []).map ofChars

-- Python str.splitlines() restricted to '\n' separators.
def pySplitlines (s : String) : List String :=
  if s = "" then []
  else
    let parts := splitChar '\n' s
    if parts.getLast? = some "" then parts.dropLast else parts

-- Python str.split() with no argument: whitespace runs, empties dropped.
def pySplitWsAux : List Char → List Char → List (List Char)
  | [], acc => if acc.isEmpty then [] else [acc.reverse]
  | x :: xs, acc =>
    if isPyWs x then
      if acc.isEmpty then pySplitWsAux xs [] else acc.reverse :: pySplitWsAux xs []
    else pySplitWsAux xs (x :: acc)

def pySplitWs (s : String) : List String := (pySplitWsAux s.data []).map ofChars

-- Python s.split(c, 1): the part before the first `c` and the part after it
-- (when `c` is absent the whole string is the first component).
def splitOnceBefore (c : Char) (s : String) : String :=
  ofChars (s.data.takeWhile (fun x => x ≠ c))

def splitOnceAfter (c : Char) (s : String) : String :=
  ofChars ((s.data.dropWhile (fun x => x ≠ c)).drop 1)

-- Python s.split(c, 1)[-1]: after the first `c` when present, else the whole string.
def splitOnceLast (c : Char) (s : String) : String :=
  if containsChar c s then splitOnceAfter c s else s

def joinWith (sep : String) : List String → String
  | [] => ""
  | [x] => x
  | x :: xs => x ++ sep ++ joinWith sep xs

def replaceAllAux (pat rep : List Char) : Nat → List Char → List Char
  | 0, l => l
  | _ + 1, [] => []
  | fuel + 1, l@(x :: xs) =>
    if pat.isPrefixOf l then rep ++ replaceAllAux pat rep fuel (l.drop pat.length)
    else x :: replaceAllAux pat rep fuel xs

-- Python str.replace(pat, rep): leftmost, non-overlapping (pat nonempty in all uses).
def replaceAll (s pat rep : String) : String :=
  ofChars (replaceAllAux pat.data rep.data s.data.length s.data)

def dropRightS (s : String) (n : Nat) : String := ofChars (s.data.take (s.data.length - n))

def isDigitC (c : Char) : Bool := '0' ≤ c ∧ c ≤ '9'

def isWordC (c : Char) : Bool :=
  ('a' ≤ c ∧ c ≤ 'z') ∨ ('A' ≤ c ∧ c ≤ 'Z') ∨ isDigitC c ∨ c = '_'

def isIdentStartC (c : Char) : Bool :=
  ('a' ≤ c ∧ c ≤ 'z') ∨ ('A' ≤ c ∧ c ≤ 'Z') ∨ c = '_'

def isIdentC (c : Char) : Bool := isIdentStartC c ∨ isDigitC c

/-! ## Association lists standing in for Python dicts / sets -/

abbrev VarTable := List (String × String)

def lookupD (d : VarTable) (k : String) : Option String :=
  (d.find? (fun kv => kv.1 = k)).map (·.2)

def getD (d : VarTable) (k dflt : String) : String := (lookupD d k).getD dflt

def hasKeyD (d : VarTable) (k : String) : Bool := (lookupD d k).isSome

-- Python dict update: replace in place when the key exists, append otherwise.
def insertD (d : VarTable) (k v : String) : VarTable :=
  if hasKeyD d k then d.map (fun kv => if kv.1 = k then (k, v) else kv) else d ++ [(k, v)]

-- Python set.add on an insertion-ordered duplicate-free list.
def insertSet (l : List String) (x : String) : List String :=
  if x ∈ l then l else l ++ [x]

def dedupList (l : List String) : List String := l.foldl insertSet []

/-! ## ajs_rel_logic.py : graph construction and need-set computation -/

structure DiGraph where
  nodes : List String
  edges : List (String × String)
deriving DecidableEq, Repr

def emptyGraph : DiGraph := ⟨[], []⟩

def addNode (G : DiGraph) (n : String) : DiGraph :=
  if n ∈ G.nodes then G else { G with nodes := G.nodes ++ [n] }

def addEdge (G : DiGraph) (a b : String) : DiGraph :=
  let G := addNode (addNode G a) b
  if (a, b) ∈ G.edges then G else { G with edges := G.edges ++ [(a, b)] }

def predecessorsOf (G : DiGraph) (n : String) : List String :=
  (G.edges.filter (fun e => e.2 = n)).map (·.1)

def successorsOf (G : DiGraph) (n : String) : List String :=
  (G.edges.filter (fun e => e.1 = n)).map (·.2)

-- pre_normalize (ajs_rel_logic.py lines 54-59): strip a leading
-- `[a-zA-Z0-9_]+:` qualifier, then strip the base prefix.
def stripWordColon (t : String) : String :=
  let run := t.data.takeWhile isWordC
  if run ≠ [] ∧ (t.data.drop run.length).head? = some ':' then
    ofChars (t.data.drop (run.length + 1))
  else t

def pre_normalize (path base : String) : String :=
  let p := stripWordColon (pyStrip path)
  if base ≠ "" ∧ base ≠ "/" ∧ startsWithS p base then
    ofChars (p.data.drop base.data.length)
  else p

def unit_types : List String :=
  ["mgroup", "group", "mnet", "condn", "net", "rnet", "rmnet", "rrnet", "job", "rjob",
   "pjob", "rpjob", "qjob", "rqjob", "jdjob", "rjdjob", "orjob", "rorjob", "fxjob",
   "rfxjob", "netcn"]

-- join_path inside pre_parse_graph.
def join_path (parent child : String) : String :=
  replaceAll (rstripSlash parent ++ "/" ++ child) "//" "/"

-- consumption of a flat comma list three tokens at a time
-- (`for i in range(0, len(parts) - 1, 3)` using parts[i], parts[i+1]).
def tripleFromToPairs : List String → List (String × String)
  | [a, b] => [(a, b)]
  | a :: b :: [_] => [(a, b)]
  | a :: b :: _ :: rest => (a, b) :: tripleFromToPairs rest
  | _ => []

def parseGraphLine (base : String) (st : DiGraph × Option String) (ln : String) :
    DiGraph × Option String :=
  let cols := splitChar '\t' ln
  match cols.head? with
  | none => st
  | some c0 =>
    let (G, cur) := st
    let (cur, G, rels) :=
      if c0 ∈ unit_types ∧ cols.length ≥ 2 then
        let p := pre_normalize (cols.getD 1 "") base
        let G := if stripSlashes p ≠ "" then addNode G p else G
        (some p, G, if cols.length ≥ 3 then cols.getD 2 "" else "")
      else (cur, G, c0)
    match cur with
    | none => (G, cur)
    | some cp =>
      if cp = "" ∨ rels = "" then (G, cur)
      else
        let parts := ((splitChar ',' rels).map pyStrip).filter (fun s => s ≠ "")
        let G := (tripleFromToPairs parts).foldl
          (fun G fr_to =>
            if fr_to.1 = "-" ∨ fr_to.2 = "-" then G
            else
              let fp := join_path cp fr_to.1
              let tp := join_path cp fr_to.2
              if stripSlashes fp ≠ "" ∧ stripSlashes tp ≠ "" then addEdge G fp tp else G)
          G
        (G, some cp)

-- pre_parse_graph (ajs_rel_logic.py lines 61-105).
def pre_parse_graph (txt base : String) : DiGraph :=
  ((pySplitlines txt).foldl (parseGraphLine base) (emptyGraph, none)).1

-- pre_descendants (ajs_rel_logic.py lines 107-110).
def pre_descendants (G : DiGraph) (n : String) : List String :=
  let pre := rstripSlash n ++ "/"
  G.nodes.filter (fun x => startsWithS x pre ∧ x ≠ n)

inductive Origin
  | seed
  | pre
  | par
  | desc
deriving DecidableEq, Repr

-- one step of the ancestor loop: anc = '/' + '/'.join(anc.strip('/').split('/')[:-1]).
def parent_path (anc : String) : String :=
  "/" ++ joinWith "/" ((splitChar '/' (stripSlashes anc)).dropLast)

-- the whole ancestor loop (ajs_rel_logic.py lines 130-134); each iteration
-- shortens the string, so the string length is sufficient fuel.
def ancestorChainAux : Nat → String → List String
  | 0, _ => []
  | fuel + 1, anc =>
    if containsChar '/' (stripSlashes anc) then
      let anc2 := parent_path anc
      if stripSlashes anc2 = "" then [] else anc2 :: ancestorChainAux fuel anc2
    else []

def ancestorPaths (n : String) : List String := ancestorChainAux n.length n

-- pre_compute_need (ajs_rel_logic.py lines 112-140).  The Python worklist `q`
-- pops from the END (`q.pop()`); the list below is kept reversed so that the
-- head is the element Python pops next, and every extend/append of the Python
-- code appears here reversed and prepended.
def needLoop : Nat → DiGraph → List (String × Origin) → List String → Option (List String)
  | _, _, [], need => some need
  | 0, _, _ :: _, _ => none
  | fuel + 1, G, (n, org) :: rest, need =>
    if stripSlashes n = "" ∨ n ∈ need then needLoop fuel G rest need
    else
      let G := if n ∈ G.nodes then G else addNode G n
      let need := need ++ [n]
      let preds := (predecessorsOf G n).map (fun p => (p, Origin.pre))
      let ancs := (ancestorPaths n).map (fun a => (a, Origin.par))
      let descs :=
        if org = Origin.seed ∨ org = Origin.pre then
          (pre_descendants G n).map (fun d => (d, Origin.desc))
        else []
      needLoop fuel G (descs.reverse ++ ancs.reverse ++ preds.reverse ++ rest) need

def pre_compute_need (fuel : Nat) (G : DiGraph) (target : String) : Option (List String) :=
  needLoop fuel G [(target, Origin.seed)] []

-- find_bridged_successors (ajs_rel_logic.py lines 142-161).  The BFS pushes a
-- node at most once (guarded by `visited`), so the number of pushes is bounded
-- by 1 + |edges| and that is used as fuel by the wrapper.
def bridgeLoop (G : DiGraph) (valid : List String) :
    Nat → List String → List String → List String → List String
  | _, [], _, targets => targets
  | 0, _ :: _, _, targets => targets
  | fuel + 1, curr :: rest, visited, targets =>
    if curr ∈ G.nodes then
      let step := (successorsOf G curr).foldl
        (fun acc succ =>
          let (visited, targets, appends) := acc
          if succ ∈ visited then (visited, targets, appends)
          else
            let visited := visited ++ [succ]
            if succ ∈ valid then (visited, targets ++ [succ], appends)
            else (visited, targets, appends ++ [succ]))
        (visited, targets, ([] : List String))
      bridgeLoop G valid fuel (rest ++ step.2.2) step.1 step.2.1
    else bridgeLoop G valid fuel rest visited targets

def find_bridged_successors (G : DiGraph) (start : String) (valid : List String) :
    List String :=
  bridgeLoop G valid (G.edges.length + 1) [start] [start] []

def basenameS (p : String) : String :=
  ofChars ((p.data.reverse.takeWhile (fun c => c ≠ '/')).reverse)

def tabs : Nat → String
  | 0 => ""
  | n + 1 => "\t" ++ tabs n

def sibFullPath (parent s : String) : String := replaceAll (parent ++ "/" ++ s) "//" "/"

def genArLoop (G : DiGraph) (valid : List String) (indentStr parentPath : String) :
    List String → List String
  | [] => []
  | s :: rest =>
    let start := sibFullPath parentPath s
    (if start ∈ G.nodes then
      (find_bridged_successors G start valid).map
        (fun nx => indentStr ++ "ar=(f=" ++ s ++ ",t=" ++ basenameS nx ++ ",seq);")
    else []) ++ genArLoop G valid indentStr parentPath rest

-- generate_ar_lines (ajs_rel_logic.py lines 163-183).
def generate_ar_lines (G : DiGraph) (siblings : List String) (parentPath : String)
    (indentLevel : Nat) : List String :=
  let valid := siblings.map (sibFullPath parentPath)
  genArLoop G valid (tabs indentLevel) parentPath siblings

/-! ## ajs_inout_logic.py : regular-expression emulations

Each Python regex used by the claims is implemented as a deterministic
matcher; where the regex engine would backtrack, the finitely many
alternatives are tried in the engine's order. -/

-- single substitution pass of ALL_VAR_PAT.sub with the replacer of
-- _create_replacer: an unknown variable is replaced by its own matched text,
-- and replacements are never rescanned.
def substScan (vars : VarTable) : Nat → List Char → List Char
  | 0, l => l
  | _ + 1, [] => []
  | fuel + 1, c :: rest =>
    if c ≠ '$' then c :: substScan vars fuel rest
    else
      match rest with
      | '\x7b' :: r2 =>
        (match r2.findIdx? (fun x => x = '\x7d') with
         | some i =>
           if i = 0 then c :: substScan vars fuel rest
           else
             let inner := r2.take i
             let tail := r2.drop (i + 1)
             match lookupD vars (ofChars inner) with
             | some v => v.data ++ substScan vars fuel tail
             | none => c :: '\x7b' :: (inner ++ '\x7d' :: substScan vars fuel tail)
         | none => c :: substScan vars fuel rest)
      | d :: _ =>
        if isIdentStartC d then
          let run := rest.takeWhile isIdentC
          let tail := rest.drop run.length
          match lookupD vars (ofChars run) with
          | some v => v.data ++ substScan vars fuel tail
          | none => c :: (run ++ substScan vars fuel tail)
        else if isDigitC d then
          let run := rest.takeWhile isDigitC
          let tail := rest.drop run.length
          match lookupD vars (ofChars run) with
          | some v => v.data ++ substScan vars fuel tail
          | none => c :: (run ++ substScan vars fuel tail)
        else c :: substScan vars fuel rest
      | [] => [c]

def substVars (vars : VarTable) (s : String) : String :=
  ofChars (substScan vars (s.data.length + 1) s.data)

-- ALL_VAR_PAT.findall, reduced to the captured variable keys.
def varKeysScan : Nat → List Char → List String
  | 0, _ => []
  | _ + 1, [] => []
  | fuel + 1, c :: rest =>
    if c ≠ '$' then varKeysScan fuel rest
    else
      match rest with
      | '\x7b' :: r2 =>
        (match r2.findIdx? (fun x => x = '\x7d') with
         | some i =>
           if i = 0 then varKeysScan fuel rest
           else ofChars (r2.take i) :: varKeysScan fuel (r2.drop (i + 1))
         | none => varKeysScan fuel rest)
      | d :: _ =>
        if isIdentStartC d then
          ofChars (rest.takeWhile isIdentC) :: varKeysScan fuel (rest.drop (rest.takeWhile isIdentC).length)
        else if isDigitC d then
          ofChars (rest.takeWhile isDigitC) :: varKeysScan fuel (rest.drop (rest.takeWhile isDigitC).length)
        else varKeysScan fuel rest
      | [] => []

def varKeys (s : String) : List String := varKeysScan (s.data.length + 1) s.data

-- ComenvParser._resolve_value (lines 88-95): at most 10 substitution passes,
-- stopping early at a fixpoint, returning the last value otherwise.
def resolveLoop (vars : VarTable) : Nat → String → String
  | 0, v => v
  | k + 1, v =>
    let nv := substVars vars v
    if nv = v then nv else resolveLoop vars k nv

def resolve_value (vars : VarTable) (value : String) : String :=
  if ¬ containsChar '$' value then value else resolveLoop vars 10 value

-- k-fold iteration of the substitution pass, for stating claims about
-- resolve_value.
def iterSubst (vars : VarTable) : Nat → String → String
  | 0, v => v
  | k + 1, v => substVars vars (iterSubst vars k v)

-- VAR_ASSIGN_PAT: ^\s*(?:export\s+)?([^=\s]+)\s*=\s*(quoted|[^ \t;#]+).
-- Returns (group 1, group 2, group 3).
def matchAssignPlain (name : List Char) (r3 : List Char) :
    Option (String × String × Option String) :=
  let v := r3.takeWhile (fun c => c ≠ ' ' ∧ c ≠ '\t' ∧ c ≠ ';' ∧ c ≠ '#')
  if v = [] then none else some (ofChars name, ofChars v, none)

def matchAssignCore (cs : List Char) : Option (String × String × Option String) :=
  let name := cs.takeWhile (fun c => ¬ isPyWs c ∧ c ≠ '=')
  if name = [] then none
  else
    match (cs.drop name.length).dropWhile isPyWs with
    | '=' :: r2 =>
      let r3 := r2.dropWhile isPyWs
      match r3 with
      | q :: r4 =>
        if q ∈ quoteChars then
          match r4.findIdx? (fun x => x ∈ quoteChars) with
          | some j =>
            if '\n' ∈ r4.take j then matchAssignPlain name r3
            else some (ofChars name, ofChars (q :: (r4.take j ++ [r4.getD j q])),
                       some (ofChars (r4.take j)))
          | none => matchAssignPlain name r3
        else matchAssignPlain name r3
      | [] => none
    | _ => none

def matchVarAssign (s : String) : Option (String × String × Option String) :=
  let cs := s.data.dropWhile isPyWs
  let withExport :=
    if "export".data.isPrefixOf cs ∧ ((cs.drop 6).head?.map isPyWs).getD false then
      matchAssignCore ((cs.drop 6).dropWhile isPyWs)
    else none
  withExport.orElse (fun _ => matchAssignCore cs)

-- RES_PAT alternatives, tried in the regex's order.  Each returns
-- (group 1, group 2, group 4, group 6, remainder after the name).
def ResHit := String × Option String × Option String × Option String × List Char

def resAltFileIo : List Char → Option ResHit
  | 'F' :: 'I' :: 'L' :: 'E' :: io :: d1 :: d2 :: rest =>
    if (io = 'I' ∨ io = 'O') ∧ isDigitC d1 ∧ isDigitC d2 then
      some (ofChars ['F', 'I', 'L', 'E', io, d1, d2], some (ofChars [io]), none, none, rest)
    else none
  | _ => none

def resAltCbl : List Char → Option ResHit
  | 'C' :: 'B' :: 'L' :: '_' :: 'S' :: 'Y' :: 'S' :: z :: d1 :: d2 :: rest =>
    if (z = '0' ∨ z = '1') ∧ isDigitC d1 ∧ isDigitC d2 then
      some (ofChars ['C', 'B', 'L', '_', 'S', 'Y', 'S', z, d1, d2], none, some (ofChars [z]),
            none, rest)
    else none
  | _ => none

def resAltIoFile : List Char → Option ResHit
  | io :: d1 :: d2 :: 'F' :: 'I' :: 'L' :: 'E' :: rest =>
    if (io = 'I' ∨ io = 'O') ∧ isDigitC d1 ∧ isDigitC d2 then
      some (ofChars [io, d1, d2, 'F', 'I', 'L', 'E'], none, none, some (ofChars [io]), rest)
    else none
  | _ => none

def resAltInFile (cs : List Char) : Option ResHit :=
  if "IN_FILE".data.isPrefixOf cs then some ("IN_FILE", none, none, none, cs.drop 7) else none

def resAltOutFile (cs : List Char) : Option ResHit :=
  if "OUT_FILE".data.isPrefixOf cs then some ("OUT_FILE", none, none, none, cs.drop 8) else none

def resTagParse (cs : List Char) : Option ResHit :=
  (resAltFileIo cs).orElse fun _ =>
  (resAltCbl cs).orElse fun _ =>
  (resAltIoFile cs).orElse fun _ =>
  (resAltInFile cs).orElse fun _ =>
  resAltOutFile cs

-- RES_PAT as a whole: name alternative, '=', then a nonempty remainder
-- (group 8); '.' does not cross a newline.
def matchResPat (s : String) : Option (String × Option String × Option String × Option String × String) :=
  match resTagParse s.data with
  | none => none
  | some (tag, io2, sys01, io3, rest) =>
    match rest with
    | '=' :: val =>
      if val ≠ [] ∧ ¬ val.any (fun c => c = '\n') then some (tag, io2, sys01, io3, ofChars val)
      else none
    | _ => none

-- RM_PAT: ^\s*rm\s+(?:-f\s+)?(.*).
def matchRmPat (s : String) : Option String :=
  match s.data.dropWhile isPyWs with
  | 'r' :: 'm' :: rest =>
    match rest with
    | c :: _ =>
      if isPyWs c then
        let r2 := rest.dropWhile isPyWs
        if "-f".data.isPrefixOf r2 ∧ ((r2.drop 2).head?.map isPyWs).getD false then
          some (ofChars ((r2.drop 2).dropWhile isPyWs))
        else some (ofChars r2)
      else none
    | [] => none
  | _ => none

-- the pattern-branch regex ^\s*([^)\s]+)\s*\) used for case branches.
def patternLineMatch (s : String) : Option String :=
  let cs := s.data.dropWhile isPyWs
  let run := cs.takeWhile (fun c => ¬ isPyWs c ∧ c ≠ ')')
  if run = [] then none
  else
    match (cs.drop run.length).dropWhile isPyWs with
    | ')' :: _ => some (ofChars run)
    | _ => none

-- CASE_VAR_PAT matched at one position.
def caseVarAt (cs : List Char) : Option String :=
  match cs with
  | 'c' :: 'a' :: 's' :: 'e' :: rest =>
    let r := rest.dropWhile isPyWs
    let r := match r with
             | q :: r2 => if q ∈ quoteChars then r2 else q :: r2
             | [] => r
    match r with
    | '$' :: '\x7b' :: r3 =>
      (match r3.findIdx? (fun x => x = '\x7d') with
       | some i => if i = 0 then none else some (ofChars (r3.take i))
       | none => none)
    | '$' :: d :: r3 =>
      if isIdentStartC d then some (ofChars ((d :: r3).takeWhile isIdentC)) else none
    | _ => none
  | _ => none

def caseVarSearchAux : List Char → Option String
  | [] => none
  | l@(_ :: rest) => (caseVarAt l).orElse (fun _ => caseVarSearchAux rest)

def caseVarSearchS (s : String) : Option String := caseVarSearchAux s.data

-- the conditional regex of _evaluate_if_statement, matched at one position.
def ifCondAt (cs : List Char) : Option (String × String) :=
  match cs with
  | 'i' :: 'f' :: r0 =>
    (match r0.dropWhile isPyWs with
     | '[' :: r1 =>
       (match r1.dropWhile isPyWs with
        | '"' :: '$' :: '\x7b' :: r2 =>
          (match r2.findIdx? (fun x => x = '\x7d') with
           | none => none
           | some i =>
             if i = 0 then none
             else
               let g1 := ofChars (r2.take i)
               match r2.drop (i + 1) with
               | '"' :: r3 =>
                 (match r3.dropWhile isPyWs with
                  | '=' :: r4 =>
                    (match r4.dropWhile isPyWs with
                     | '"' :: r5 =>
                       (match r5.findIdx? (fun x => x = '"') with
                        | none => none
                        | some j =>
                          if j = 0 then none
                          else
                            let g2 := ofChars (r5.take j)
                            match (r5.drop (j + 1)).dropWhile isPyWs with
                            | ']' :: _ => some (g1, g2)
                            | _ => none)
                     | _ => none)
                  | _ => none)
               | _ => none)
        | _ => none)
     | _ => none)
  | _ => none

def ifCondSearch : List Char → Option (String × String)
  | [] => none
  | l@(_ :: rest) => (ifCondAt l).orElse (fun _ => ifCondSearch rest)

-- _evaluate_if_statement (lines 97-101): True when the regex does not match.
def evalIfStmt (line : String) (vars : VarTable) : Bool :=
  match ifCondSearch line.data with
  | some (g1, g2) => getD vars g1 "" = g2
  | none => true

/-! ## ajs_inout_logic.py : ShellParser, ComenvParser, ShellExecutor -/

inductive Proc
  | RM (tmpl : String)
  | ASSIGN (name tmpl : String)
  | IO_ASSIGN (name tmpl : String) (tag : String) (io2 sys01 io3 : Option String)
deriving DecidableEq, Repr

-- ShellParser._parse_shell_to_procedures (lines 220-241): an rm line yields
-- only RM; otherwise an assignment match and a resource match may BOTH fire
-- on the same line (no continue between them).
def shellParseLine (acc : List Proc) (raw : String) : List Proc :=
  let line := pyStrip (splitOnceBefore '#' (pyStrip raw))
  if line = "" then acc
  else
    match matchRmPat line with
    | some g1 => acc ++ [Proc.RM (pyStrip g1)]
    | none =>
      let acc :=
        match matchVarAssign line with
        | some (name, g2, g3) => acc ++ [Proc.ASSIGN name (stripQuotes (g3.getD g2))]
        | none => acc
      match matchResPat line with
      | some (tag, io2, sys01, io3, val) =>
        acc ++ [Proc.IO_ASSIGN tag (stripQuotes val) tag io2 sys01 io3]
      | none => acc

def shellParseLines (lines : List String) : List Proc := lines.foldl shellParseLine []

structure Comenv where
  lines : List String
  initialVars : VarTable
  casePatterns : List (String × List String)
  caseVarsOrder : List String
  masterVarDict : List (List String × VarTable)
deriving DecidableEq, Repr

def mkComenv (lines : List String) (init : VarTable) : Comenv := ⟨lines, init, [], [], []⟩

/-- Modelled from the spec and ComenvParser._read_comenv (lines 79-86): the
file system is outside the embedding, so the read outcome is a parameter;
`none` stands for an absent path or an unreadable file, and both yield `[]`
("falls back to the initial table ... soft failure"). -/
def readComenvLines (contents : Option (List String)) : List String := contents.getD []

-- first pass of parse_all_patterns (lines 106-124): collect case variables
-- and their literal branch patterns.  Note the Python `elif` chain: while a
-- case variable is current, an `esac` line is examined only as a potential
-- pattern line and never resets the current variable.
def collectCaseStep (st : Option String × List String × List (String × List String))
    (line : String) : Option String × List String × List (String × List String) :=
  let (cv, order, pats) := st
  let ls := pyStrip line
  if startsWithS ls "case" then
    match caseVarSearchS ls with
    | some v =>
      let order := if v ∈ order then order else order ++ [v]
      let pats := if (pats.find? (fun kv => kv.1 = v)).isSome then pats else pats ++ [(v, [])]
      (some v, order, pats)
    | none => (cv, order, pats)
  else
    match cv with
    | some v =>
      (match patternLineMatch ls with
       | some p =>
         let p := pyStrip p
         if p ≠ "*" then
           (cv, order, pats.map (fun kv => if kv.1 = v then (v, insertSet kv.2 p) else kv))
         else (cv, order, pats)
       | none => (cv, order, pats))
    | none => if startsWithS ls "esac" then (none, order, pats) else (cv, order, pats)

structure ReplayState where
  vars : VarTable
  activeBlock : Bool
  caseActive : Bool
  currentCaseVar : Option String
  caseMatchFound : Bool
deriving DecidableEq, Repr

-- one line of the per-combination replay (lines 148-201).
def replayLine (pmap : VarTable) (st : ReplayState) (line : String) : ReplayState :=
  let ls := pyStrip line
  if ls = "" ∨ startsWithS ls "#" then st
  else if startsWithS ls "if" then { st with activeBlock := evalIfStmt ls st.vars }
  else if startsWithS ls "else" then { st with activeBlock := ! st.activeBlock }
  else if startsWithS ls "fi" then { st with activeBlock := true }
  else if startsWithS ls "case" then
    match caseVarSearchS ls with
    | some v => { st with currentCaseVar := some v, caseMatchFound := false, caseActive := true }
    | none => st
  else if startsWithS ls "esac" then
    { st with currentCaseVar := none, caseMatchFound := false, caseActive := false,
              activeBlock := true }
  else
    let patRes := if st.caseActive then patternLineMatch ls else none
    let semiStop := st.caseActive ∧ patRes = none ∧ startsWithS ls ";;"
    let (st, isPatternLine) :=
      match patRes with
      | some p =>
        let p := pyStrip p
        let target :=
          match st.currentCaseVar with
          | none => "*"
          | some cv => getD pmap cv "*"
        if ¬ st.caseMatchFound ∧ (p = target ∨ p = "*") then
          ({ st with activeBlock := true, caseMatchFound := true }, true)
        else ({ st with activeBlock := false }, true)
      | none => (st, false)
    if semiStop then { st with activeBlock := false }
    else if st.activeBlock then
      let ltp := pyStrip (replaceAll line "export " "")
      let ltp := if isPatternLine then pyStrip (splitOnceLast ')' ltp) else ltp
      let ltp := if endsWithS ltp ";;" then pyStrip (dropRightS ltp 2) else ltp
      let ltp := pyStrip (splitOnceBefore '#' ltp)
      match matchVarAssign ltp with
      | some (name, g2, g3) =>
        let value := stripQuotes (g3.getD g2)
        { st with vars := insertD st.vars name (resolve_value st.vars value) }
      | none => st
    else st

def replayCombination (lines : List String) (initial : VarTable) (pmap : VarTable) : VarTable :=
  (lines.foldl (replayLine pmap) ⟨initial, true, false, none, false⟩).vars

-- Python string comparison: lexicographic on code points.
def strLtList : List Char → List Char → Bool
  | [], [] => false
  | [], _ :: _ => true
  | _ :: _, [] => false
  | a :: as, b :: bs =>
    if a.toNat < b.toNat then true
    else if b.toNat < a.toNat then false
    else strLtList as bs

def pyStrLt (a b : String) : Bool := strLtList a.data b.data

def insertSorted (x : String) : List String → List String
  | [] => [x]
  | y :: ys => if pyStrLt x y then x :: y :: ys else y :: insertSorted x ys

def sortStrings : List String → List String
  | [] => []
  | x :: xs => insertSorted x (sortStrings xs)

def cartProd : List (List String) → List (List String)
  | [] => [[]]
  | l :: ls => l.flatMap (fun x => (cartProd ls).map (fun c => x :: c))

-- parse_all_patterns (lines 103-202).
def parse_all_patterns (c : Comenv) : Comenv :=
  match c.lines with
  | [] => c
  | _ =>
    let phase1 := c.lines.foldl collectCaseStep (none, [], [])
    let order := phase1.2.1
    let pats := phase1.2.2
    let patternLists := order.map (fun v =>
      sortStrings ((((pats.find? (fun kv => kv.1 = v)).map (·.2)).getD [])) ++ ["*"])
    let dflt := patternLists = []
    let patternLists := if dflt then [["*"]] else patternLists
    let order := if dflt then ["_default_"] else order
    let combos := cartProd patternLists
    let master := combos.map
      (fun comb => (comb, replayCombination c.lines c.initialVars (order.zip comb)))
    { c with casePatterns := pats, caseVarsOrder := order, masterVarDict := master }

def parseEnvPairs (envStr : String) : VarTable :=
  ((splitChar ';' envStr).filter (fun item => containsChar '=' item)).foldl
    (fun d item => insertD d (splitOnceBefore '=' item) (splitOnceAfter '=' item)) []

-- get_var_dict_for_env (lines 204-212).
def get_var_dict_for_env (c : Comenv) (envStr : String) : VarTable :=
  match c.masterVarDict with
  | [] => c.initialVars
  | _ =>
    let envVars := parseEnvPairs envStr
    let key := c.caseVarsOrder.map (fun v =>
      let val := getD envVars v "*"
      match c.casePatterns.find? (fun kv => kv.1 = v) with
      | some kv => if val ∈ kv.2 then val else "*"
      | none => val)
    (((c.masterVarDict.find? (fun kv => kv.1 = key)).map (·.2)).getD c.initialVars)

structure ExecState where
  ctx : VarTable
  ins : List String
  outs : List String
  unres : List String
deriving DecidableEq, Repr

def natKey (n : Nat) : String := toString n

-- ShellExecutor._init_context (lines 253-262).
def initContext (comenvDict : VarTable) (envStr param : String) : VarTable :=
  let ctx := ((splitChar ';' envStr).filter (fun item => containsChar '=' item)).foldl
    (fun d item => insertD d (splitOnceBefore '=' item) (splitOnceAfter '=' item)) comenvDict
  (pySplitWs param).enum.foldl (fun d p => insertD d (natKey (p.1 + 1)) p.2) ctx

-- ShellExecutor._resolve_value (lines 264-267): a single substitution pass.
def exec_resolve (ctx : VarTable) (v : String) : String :=
  if v = "" ∨ ¬ containsChar '$' v then v else substVars ctx v

def backtickStr : String := "`"

def hasCmdSubst (s : String) : Bool := substrIn backtickStr s ∨ substrIn "$(" s

def ioIsInput (tag : String) (io2 sys01 io3 : Option String) : Bool :=
  if substrIn "IN_FILE" tag then true
  else if substrIn "OUT_FILE" tag then false
  else match io2 with
    | some x => x = "I"
    | none =>
      match sys01 with
      | some z => z = "0"
      | none =>
        match io3 with
        | some x => x = "I"
        | none => false

-- one procedure of ShellExecutor.execute (lines 269-301).
def execStep (s : ExecState) (p : Proc) : ExecState :=
  match p with
  | .RM t =>
    let r := exec_resolve s.ctx t
    { s with outs := s.outs.filter (fun f => f ≠ r), ins := s.ins.filter (fun f => f ≠ r) }
  | .ASSIGN name tmpl => { s with ctx := insertD s.ctx name (exec_resolve s.ctx tmpl) }
  | .IO_ASSIGN name tmpl tag io2 sys01 io3 =>
    let r := exec_resolve s.ctx tmpl
    let ctx := insertD s.ctx name r
    let isUnres := (varKeys r).any (fun k => ¬ hasKeyD ctx k) ∨ hasCmdSubst r
    let unres := if isUnres then insertSet s.unres tmpl else s.unres
    if ioIsInput tag io2 sys01 io3 then
      { ctx := ctx, ins := s.ins ++ [r], outs := s.outs, unres := unres }
    else
      { ctx := ctx, ins := s.ins, outs := s.outs ++ [r], unres := unres }

def runProcs (s : ExecState) (procs : List Proc) : ExecState := procs.foldl execStep s

def execute (procs : List Proc) (comenvDict : VarTable) (envStr param : String) :
    List String × List String × List String :=
  let s := runProcs ⟨initContext comenvDict envStr param, [], [], []⟩ procs
  (s.ins, s.outs, s.unres)

-- this one procedure, replayed in state `s`, is an IO_ASSIGN appending exactly `v`.
def collectsHere (v : String) (s : ExecState) : Proc → Bool
  | Proc.IO_ASSIGN _ tmpl _ _ _ _ => exec_resolve s.ctx tmpl == v
  | _ => false

-- an IO_ASSIGN somewhere in `procs`, replayed from `s`, appends exactly `v`.
def collectsVal (v : String) : ExecState → List Proc → Bool
  | _, [] => false
  | s, p :: ps => collectsHere v s p || collectsVal v (execStep s p) ps

/-! ## ajs_depend_logic.py : producer map and reverse trace (lines 124-159) -/

structure IoRecord where
  unitFull : String
  ins : List String
  outs : List String
deriving DecidableEq, Repr

-- producer_map.get(f): the set of units declaring f among their outputs,
-- empty when no unit does (defaultdict getter without insertion).
def producersOf (records : List IoRecord) (f : String) : List String :=
  records.foldl (fun acc r => if f ∈ r.outs then insertSet acc r.unitFull else acc) []

-- the inner input loop: visit and enqueue each nonempty unvisited input.
def enqueueInputs : List String → List String → List String → List String × List String
  | [], vis, enq => (vis, enq)
  | inp :: rest, vis, enq =>
    if inp ≠ "" ∧ inp ∉ vis then enqueueInputs rest (vis ++ [inp]) (enq ++ [inp])
    else enqueueInputs rest vis enq

-- the producer loop for one dequeued file.
def processProds (records : List IoRecord) :
    List String → List String → List String → List String →
    List String × List String × List String
  | [], needed, vis, enq => (needed, vis, enq)
  | u :: us, needed, vis, enq =>
    if u ∈ needed then processProds records us needed vis enq
    else
      match records.find? (fun r => r.unitFull = u) with
      | some r =>
        let ve := enqueueInputs r.ins vis enq
        processProds records us (needed ++ [u]) ve.1 ve.2
      | none => processProds records us (needed ++ [u]) vis enq

structure TraceResult where
  needed : List String
  external : List String
  visited : List String
deriving DecidableEq, Repr

-- the BFS while-loop of dep_start_job; the deque pops from the front and
-- appends at the back.
def depTraceLoop (records : List IoRecord) :
    Nat → List String → List String → List String → List String → Option TraceResult
  | _, [], vis, needed, ext => some ⟨needed, ext, vis⟩
  | 0, _ :: _, _, _, _ => none
  | fuel + 1, f :: rest, vis, needed, ext =>
    match producersOf records f with
    | [] => depTraceLoop records fuel rest vis needed (insertSet ext f)
    | p :: ps =>
      let nve := processProds records (p :: ps) needed vis []
      depTraceLoop records fuel (rest ++ nve.2.2) nve.2.1 nve.1 ext

def depTrace (records : List IoRecord) (fuel : Nat) (targets : List String) :
    Option TraceResult :=
  depTraceLoop records fuel targets (dedupList targets) [] []

/-! ## Helper lemmas -/

theorem mem_insertSet_self (l : List String) (x : String) : x ∈ insertSet l x := by
  unfold insertSet; split
  · assumption
  · simp

theorem mem_insertSet_of_mem (l : List String) (x y : String) (h : y ∈ l) :
    y ∈ insertSet l x := by
  unfold insertSet; split
  · exact h
  · simp [h]

theorem mem_of_mem_insertSet (l : List String) (x y : String) (h : y ∈ insertSet l x) :
    y ∈ l ∨ y = x := by
  unfold insertSet at h; split at h
  · exact Or.inl h
  · simpa using h

theorem mem_dedupAux (l : List String) :
    ∀ acc x, x ∈ l.foldl insertSet acc → x ∈ acc ∨ x ∈ l := by
  induction l with
  | nil => intro acc x h; exact Or.inl h
  | cons a l ih =>
    intro acc x h
    rcases ih (insertSet acc a) x h with h1 | h1
    · rcases mem_of_mem_insertSet acc a x h1 with h2 | h2
      · exact Or.inl h2
      · exact Or.inr (by simp [h2])
    · exact Or.inr (by simp [h1])

theorem mem_of_mem_dedupList (l : List String) (x : String) (h : x ∈ dedupList l) : x ∈ l := by
  rcases mem_dedupAux l [] x h with h1 | h1
  · simp at h1
  · exact h1

theorem needLoop_mono (fuel : Nat) :
    ∀ (G : DiGraph) (q : List (String × Origin)) (need res : List String),
      needLoop fuel G q need = some res → ∀ x, x ∈ need → x ∈ res := by
  induction fuel with
  | zero =>
    intro G q need res h x hx
    cases q with
    | nil => simp only [needLoop, Option.some.injEq] at h; exact h ▸ hx
    | cons a q' => simp [needLoop] at h
  | succ m ih =>
    intro G q need res h x hx
    cases q with
    | nil => simp only [needLoop, Option.some.injEq] at h; exact h ▸ hx
    | cons hd tl =>
      obtain ⟨n, org⟩ := hd
      simp only [needLoop] at h
      split at h
      · exact ih _ _ _ _ h x hx
      · exact ih _ _ _ _ h x (by simp [hx])

theorem ancestorChainAux_strip_ne (fuel : Nat) :
    ∀ anc a, a ∈ ancestorChainAux fuel anc → stripSlashes a ≠ "" := by
  induction fuel with
  | zero => intro anc a h; simp [ancestorChainAux] at h
  | succ m ih =>
    intro anc a h
    simp only [ancestorChainAux] at h
    split at h
    · split at h
      · simp at h
      · rcases List.mem_cons.mp h with h1 | h1
        · subst h1; assumption
        · exact ih _ _ h1
    · simp at h

theorem ancestorPaths_strip_ne (n a : String) (h : a ∈ ancestorPaths n) :
    stripSlashes a ≠ "" := ancestorChainAux_strip_ne n.length n a h

theorem needLoop_anc (fuel : Nat) :
    ∀ (G : DiGraph) (q : List (String × Origin)) (need res : List String),
      needLoop fuel G q need = some res →
      (∀ n ∈ need, ∀ a ∈ ancestorPaths n, a ∈ need ∨ ∃ o, (a, o) ∈ q) →
      ∀ n ∈ res, ∀ a ∈ ancestorPaths n, a ∈ res := by
  induction fuel with
  | zero =>
    intro G q need res h hinv
    cases q with
    | nil =>
      simp only [needLoop, Option.some.injEq] at h
      subst h
      intro n hn a ha
      rcases hinv n hn a ha with h1 | ⟨o, ho⟩
      · exact h1
      · simp at ho
    | cons hd tl => simp [needLoop] at h
  | succ m ih =>
    intro G q need res h hinv
    cases q with
    | nil =>
      simp only [needLoop, Option.some.injEq] at h
      subst h
      intro n hn a ha
      rcases hinv n hn a ha with h1 | ⟨o, ho⟩
      · exact h1
      · simp at ho
    | cons hd tl =>
      obtain ⟨n, org⟩ := hd
      simp only [needLoop] at h
      split at h
      case isTrue hcond =>
        apply ih _ _ _ _ h
        intro n' hn' a ha
        rcases hinv n' hn' a ha with h1 | ⟨o, ho⟩
        · exact Or.inl h1
        · rcases List.mem_cons.mp ho with he | ho'
          · have han : a = n := (Prod.mk.injEq _ _ _ _ ▸ he).1
            rcases hcond with hstrip | hmem
            · exact absurd (han ▸ hstrip) (ancestorPaths_strip_ne n' a ha)
            · exact Or.inl (han ▸ hmem)
          · exact Or.inr ⟨o, ho'⟩
      case isFalse hcond =>
        apply ih _ _ _ _ h
        intro n' hn' a ha
        rcases List.mem_append.mp hn' with hold | hnew
        · rcases hinv n' hold a ha with h1 | ⟨o, ho⟩
          · exact Or.inl (List.mem_append_left _ h1)
          · rcases List.mem_cons.mp ho with he | ho'
            · have han : a = n := (Prod.mk.injEq _ _ _ _ ▸ he).1
              exact Or.inl (by simp [han])
            · exact Or.inr ⟨o, List.mem_append_right _ ho'⟩
        · have hn'n : n' = n := by simpa using hnew
          subst hn'n
          refine Or.inr ⟨Origin.par, ?_⟩
          refine List.mem_append_left _ (List.mem_append_left _ (List.mem_append_right _ ?_))
          simp only [List.mem_reverse, List.mem_map]
          exact ⟨a, ha, rfl⟩

/-! ## The claims -/

/-- C1: for every dependency graph `G` and target `t` whose normalized form
`t.strip('/')` is non-empty, whenever `pre_compute_need` terminates its result
contains `t` itself. -/
theorem claim_C1_target_in_need (fuel : Nat) (G : DiGraph) (t : String)
    (need : List String) (hrun : pre_compute_need fuel G t = some need)
    (hne : stripSlashes t ≠ "") : t ∈ need := by
  cases fuel with
  | zero => simp [pre_compute_need, needLoop] at hrun
  | succ m =>
    rw [pre_compute_need] at hrun
    simp only [needLoop] at hrun
    rw [if_neg (by simp [hne])] at hrun
    exact needLoop_mono _ _ _ _ _ hrun t (by simp)

theorem claim_C1_witness : ("/A" : String) ∈ (["/A"] : List String) :=
  claim_C1_target_in_need 5 emptyGraph "/A" ["/A"] (by decide) (by decide)

/-- C2: every path in a computed need-set other than the target has all of its
hierarchical ancestors (iteratively stripping the last path segment) in the
need-set as well. -/
theorem claim_C2_ancestors_closed (fuel : Nat) (G : DiGraph) (t : String)
    (need : List String) (hrun : pre_compute_need fuel G t = some need) :
    ∀ n ∈ need, n ≠ t → ∀ a ∈ ancestorPaths n, a ∈ need := by
  intro n hn _ a ha
  exact needLoop_anc fuel G _ [] need hrun (by intro n hn; simp at hn) n hn a ha

theorem claim_C2_witness : ("/G" : String) ∈ (["/G/H/C", "/G", "/G/H"] : List String) :=
  claim_C2_ancestors_closed 10 emptyGraph "/G/H/C" ["/G/H/C", "/G", "/G/H"] (by decide)
    "/G/H" (by decide) (by decide) "/G" (by decide)

def relDumpB : String := "net\t/G\tA,B,seq,B,C,seq\njob\t/G/D"

/-- C3: for the relation dump with triples (A,B,seq) and (B,C,seq) under
parent /G and unrelated sibling /G/D, the need-set of /G/C is exactly
the four paths /G/C, /G, /G/B, /G/A and excludes /G/D. -/
theorem claim_C3_scenario_need_set :
    pre_compute_need 20 (pre_parse_graph relDumpB "") "/G/C"
      = some ["/G/C", "/G", "/G/B", "/G/A"] ∧
    "/G/D" ∉ (["/G/C", "/G", "/G/B", "/G/A"] : List String) := by decide

def chainGraphC : DiGraph :=
  ⟨["/G", "/G/A", "/G/B", "/G/C"], [("/G/A", "/G/B"), ("/G/B", "/G/C")]⟩

theorem genArLoop_length (G : DiGraph) (valid : List String) (indentStr parentPath : String) :
    ∀ sibs : List String,
      (genArLoop G valid indentStr parentPath sibs).length =
        (sibs.map (fun s =>
          if sibFullPath parentPath s ∈ G.nodes then
            (find_bridged_successors G (sibFullPath parentPath s) valid).length
          else 0)).sum := by
  intro sibs
  induction sibs with
  | nil => simp [genArLoop]
  | cons s rest ih =>
    simp only [genArLoop, List.map_cons, List.sum_cons, List.length_append, ih]
    split <;> simp

/-- C4: on the chain A→B→C with retained siblings A and C the re-linking
emits exactly the single arc line A→C; in general the emitted line count is
one line per (retained sibling, discovered bridged retained successor)
pair. -/
theorem claim_C4_arc_relinking :
    generate_ar_lines chainGraphC ["A", "C"] "/G" 1 = ["\tar=(f=A,t=C,seq);"] ∧
    ∀ (G : DiGraph) (sibs : List String) (parent : String) (ind : Nat),
      (generate_ar_lines G sibs parent ind).length =
        (sibs.map (fun s =>
          if sibFullPath parent s ∈ G.nodes then
            (find_bridged_successors G (sibFullPath parent s)
              (sibs.map (sibFullPath parent))).length
          else 0)).sum := by
  refine ⟨by decide, ?_⟩
  intro G sibs parent ind
  exact genArLoop_length G (sibs.map (sibFullPath parent)) (tabs ind) parent sibs

/-- C9: with the shared-environment script absent or unreadable (the read
yields no lines), the variable lookup returns the initial bank-specific table
unchanged for every unit environment string. -/
theorem claim_C9_missing_comenv_fallback (init : VarTable) (envStr : String) :
    get_var_dict_for_env (parse_all_patterns (mkComenv (readComenvLines none) init)) envStr
      = init := rfl

theorem count_filter_ne (v r : String) (l : List String) :
    (l.filter (fun f => f ≠ r)).count v = if v = r then 0 else l.count v := by
  by_cases hvr : v = r
  · subst hvr
    rw [if_pos rfl, List.count_eq_zero]
    intro hmem
    have := List.of_mem_filter hmem
    simp at this
  · rw [if_neg hvr, List.count_filter]
    simp [hvr]

/-- C10: a REMOVE retracts exactly the entries string-equal to its resolved
target — both lists become the equality-based filter of their old values, so
every other entry keeps its position and multiplicity — and a wildcard target
such as /tmp/* is compared literally, removing only a literally equal
entry. -/
theorem claim_C10_remove_exact_only :
    (∀ (s : ExecState) (t : String),
      (execStep s (Proc.RM t)).ins = s.ins.filter (fun f => f ≠ exec_resolve s.ctx t) ∧
      (execStep s (Proc.RM t)).outs = s.outs.filter (fun f => f ≠ exec_resolve s.ctx t) ∧
      ∀ v : String,
        (execStep s (Proc.RM t)).ins.count v
          = (if v = exec_resolve s.ctx t then 0 else s.ins.count v) ∧
        (execStep s (Proc.RM t)).outs.count v
          = (if v = exec_resolve s.ctx t then 0 else s.outs.count v)) ∧
    (execStep ⟨[], ["/tmp/a", "/tmp/*"], ["/tmp/a", "/tmp/*"], []⟩ (Proc.RM "/tmp/*")).ins
      = ["/tmp/a"] ∧
    (execStep ⟨[], ["/tmp/a", "/tmp/*"], ["/tmp/a", "/tmp/*"], []⟩ (Proc.RM "/tmp/*")).outs
      = ["/tmp/a"] := by
  refine ⟨?_, by decide, by decide⟩
  intro s t
  refine ⟨rfl, rfl, ?_⟩
  intro v
  exact ⟨count_filter_ne v _ s.ins, count_filter_ne v _ s.outs⟩


theorem substScan_no_dollar (vars : VarTable) :
    ∀ (fuel : Nat) (l : List Char), (∀ c ∈ l, c ≠ '$') → substScan vars fuel l = l := by
  intro fuel
  induction fuel with
  | zero => intro l _; rfl
  | succ m ih =>
    intro l hl
    cases l with
    | nil => rfl
    | cons c rest =>
      have hc : c ≠ '$' := hl c (by simp)
      simp only [substScan, if_pos hc]
      rw [ih rest (fun x hx => hl x (by simp [hx]))]

theorem substVars_no_dollar (vars : VarTable) (v : String) (h : ¬ containsChar '$' v = true) :
    substVars vars v = v := by
  have hall : ∀ c ∈ v.data, c ≠ '$' := by
    intro c hc
    by_contra he
    exact h (by simp only [containsChar, List.any_eq_true]; exact ⟨c, hc, by simp [he]⟩)
  show ofChars (substScan vars (v.data.length + 1) v.data) = v
  rw [substScan_no_dollar vars _ _ hall]
  rfl

theorem iterSubst_shift (vars : VarTable) (k : Nat) (v : String) :
    iterSubst vars k (substVars vars v) = iterSubst vars (k + 1) v := by
  induction k with
  | zero => rfl
  | succ m ih => simp only [iterSubst, ih]

theorem resolveLoop_spec (vars : VarTable) :
    ∀ (m : Nat) (v : String), ∃ k, k ≤ m ∧ resolveLoop vars m v = iterSubst vars k v := by
  intro m
  induction m with
  | zero => intro v; exact ⟨0, Nat.le_refl 0, rfl⟩
  | succ mm ih =>
    intro v
    by_cases h : substVars vars v = v
    · refine ⟨1, by omega, ?_⟩
      simp only [resolveLoop, if_pos h, iterSubst]
    · obtain ⟨k, hk, he⟩ := ih (substVars vars v)
      refine ⟨k + 1, by omega, ?_⟩
      simp only [resolveLoop, if_neg h]
      rw [he, iterSubst_shift]

theorem resolveLoop_noconv (vars : VarTable) :
    ∀ (m : Nat) (v : String),
      (∀ k, k < m → substVars vars (iterSubst vars k v) ≠ iterSubst vars k v) →
      resolveLoop vars m v = iterSubst vars m v := by
  intro m
  induction m with
  | zero => intro v _; rfl
  | succ mm ih =>
    intro v hnc
    have h0 : substVars vars v ≠ v := by
      have h1 := hnc 0 (by omega)
      simpa [iterSubst] using h1
    simp only [resolveLoop, if_neg h0]
    rw [ih (substVars vars v) ?_, iterSubst_shift]
    intro k hk
    have h1 := hnc (k + 1) (by omega)
    rw [← iterSubst_shift] at h1
    exact h1

/-- C6: variable resolution is a no-op on any value left unchanged by one
substitution pass; it performs at most 10 substitution passes (the result is
always a k-fold pass iterate with k ≤ 10); and when no prefix of 10 passes
converges it returns the value after the 10th pass — the last value — rather
than raising an error. -/
theorem claim_C6_resolution_convergence (vars : VarTable) (v : String) :
    (substVars vars v = v → resolve_value vars v = v) ∧
    (∃ k, k ≤ 10 ∧ resolve_value vars v = iterSubst vars k v) ∧
    ((∀ k, k < 10 → substVars vars (iterSubst vars k v) ≠ iterSubst vars k v) →
      resolve_value vars v = iterSubst vars 10 v) := by
  refine ⟨?_, ?_, ?_⟩
  · intro h
    unfold resolve_value
    split
    · rfl
    · simp only [resolveLoop, if_pos h]
      exact h
  · unfold resolve_value
    split
    · exact ⟨0, by omega, rfl⟩
    · exact resolveLoop_spec vars 10 v
  · intro hnc
    unfold resolve_value
    split
    case isTrue hnd =>
      exact absurd (substVars_no_dollar vars v hnd)
        (by simpa [iterSubst] using hnc 0 (by omega))
    case isFalse => exact resolveLoop_noconv vars 10 v hnc

theorem claim_C6_witness : resolve_value [] "abc" = "abc" :=
  (claim_C6_resolution_convergence [] "abc").1 (by decide)

theorem absent_preserved (v : String) :
    ∀ (procs : List Proc) (s : ExecState), v ∉ s.ins → v ∉ s.outs →
      collectsVal v s procs = false →
      v ∉ (runProcs s procs).ins ∧ v ∉ (runProcs s procs).outs := by
  intro procs
  induction procs with
  | nil => intro s h1 h2 _; exact ⟨h1, h2⟩
  | cons p ps ih =>
    intro s h1 h2 hc
    rw [collectsVal, Bool.or_eq_false_iff] at hc
    obtain ⟨hm, hrest⟩ := hc
    have hstep : v ∉ (execStep s p).ins ∧ v ∉ (execStep s p).outs := by
      cases p with
      | RM t =>
        exact ⟨fun hmem => h1 (List.mem_of_mem_filter hmem),
               fun hmem => h2 (List.mem_of_mem_filter hmem)⟩
      | ASSIGN name tmpl => exact ⟨h1, h2⟩
      | IO_ASSIGN name tmpl tag io2 sys01 io3 =>
        have hne : exec_resolve s.ctx tmpl ≠ v := by simpa [collectsHere] using hm
        simp only [execStep]
        split
        · refine ⟨?_, h2⟩
          intro hmem
          rcases List.mem_append.mp hmem with h | h
          · exact h1 h
          · have hv : v = exec_resolve s.ctx tmpl := by simpa using h
            exact hne hv.symm
        · refine ⟨h1, ?_⟩
          intro hmem
          rcases List.mem_append.mp hmem with h | h
          · exact h2 h
          · have hv : v = exec_resolve s.ctx tmpl := by simpa using h
            exact hne hv.symm
    have hres := ih (execStep s p) hstep.1 hstep.2 hrest
    simpa [runProcs] using hres

/-- C7 amended: a file removed by a REMOVE (all entries equal to the resolved
target are dropped from both lists) stays absent from the final inputs and
outputs, provided no IO_ASSIGN executed after that REMOVE collects the same
resolved value again. -/
theorem claim_C7_remove_retracts (s : ExecState) (pre post : List Proc) (t : String)
    (hnc : collectsVal (exec_resolve (runProcs s pre).ctx t)
            (execStep (runProcs s pre) (Proc.RM t)) post = false) :
    exec_resolve (runProcs s pre).ctx t ∉ (runProcs s (pre ++ Proc.RM t :: post)).ins ∧
    exec_resolve (runProcs s pre).ctx t ∉ (runProcs s (pre ++ Proc.RM t :: post)).outs := by
  have hrw : runProcs s (pre ++ Proc.RM t :: post)
      = runProcs (execStep (runProcs s pre) (Proc.RM t)) post := by
    simp [runProcs, List.foldl_append]
  rw [hrw]
  refine absent_preserved _ post _ ?_ ?_ hnc
  · intro hmem
    simp only [execStep] at hmem
    have := List.of_mem_filter hmem
    simp at this
  · intro hmem
    simp only [execStep] at hmem
    have := List.of_mem_filter hmem
    simp at this

def emptyExec : ExecState := ⟨[], [], [], []⟩

def reAddProcs : List Proc :=
  [Proc.IO_ASSIGN "A" "f" "OUT_FILE" none none none, Proc.RM "f",
   Proc.IO_ASSIGN "B" "f" "OUT_FILE" none none none]

/-- C7 counterexample: the value "f" is collected by the first IO_ASSIGN, the
later REMOVE's resolved target equals "f", yet "f" is present in the returned
outputs, because a second IO_ASSIGN placed after the REMOVE collects it
again. -/
theorem claim_C7_counterexample :
    exec_resolve emptyExec.ctx "f" = "f" ∧
    exec_resolve (execStep emptyExec (Proc.IO_ASSIGN "A" "f" "OUT_FILE" none none none)).ctx "f"
      = "f" ∧
    "f" ∈ (runProcs emptyExec reAddProcs).outs := by decide

theorem claim_C7_witness :
    exec_resolve (runProcs emptyExec [Proc.IO_ASSIGN "A" "f" "OUT_FILE" none none none]).ctx "f"
      ∉ (runProcs emptyExec
          ([Proc.IO_ASSIGN "A" "f" "OUT_FILE" none none none] ++ Proc.RM "f" :: [])).ins ∧
    exec_resolve (runProcs emptyExec [Proc.IO_ASSIGN "A" "f" "OUT_FILE" none none none]).ctx "f"
      ∉ (runProcs emptyExec
          ([Proc.IO_ASSIGN "A" "f" "OUT_FILE" none none none] ++ Proc.RM "f" :: [])).outs :=
  claim_C7_remove_retracts emptyExec [Proc.IO_ASSIGN "A" "f" "OUT_FILE" none none none] [] "f"
    (by decide)

theorem enqueueInputs_spec :
    ∀ (inps vis enq : List String),
      (∀ g ∈ (enqueueInputs inps vis enq).1, g ∈ vis ∨ g ∈ (enqueueInputs inps vis enq).2) ∧
      (∀ g ∈ enq, g ∈ (enqueueInputs inps vis enq).2) := by
  intro inps
  induction inps with
  | nil => intro vis enq; exact ⟨fun g hg => Or.inl hg, fun g hg => hg⟩
  | cons inp rest ih =>
    intro vis enq
    simp only [enqueueInputs]
    split
    · obtain ⟨h1, h2⟩ := ih (vis ++ [inp]) (enq ++ [inp])
      constructor
      · intro g hg
        rcases h1 g hg with hv | he
        · rcases List.mem_append.mp hv with hv2 | hv2
          · exact Or.inl hv2
          · have hge : g = inp := by simpa using hv2
            exact Or.inr (h2 g (by simp [hge]))
        · exact Or.inr he
      · intro g hg
        exact h2 g (List.mem_append_left _ hg)
    · exact ih vis enq

theorem processProds_spec (records : List IoRecord) :
    ∀ (us needed vis enq : List String),
      (∀ g ∈ (processProds records us needed vis enq).2.1,
        g ∈ vis ∨ g ∈ (processProds records us needed vis enq).2.2) ∧
      (∀ g ∈ enq, g ∈ (processProds records us needed vis enq).2.2) := by
  intro us
  induction us with
  | nil => intro needed vis enq; exact ⟨fun g hg => Or.inl hg, fun g hg => hg⟩
  | cons u us ih =>
    intro needed vis enq
    simp only [processProds]
    split
    · exact ih needed vis enq
    · rcases hfind : records.find? (fun r => r.unitFull = u) with _ | r
      · simp only [hfind]
        exact ih (needed ++ [u]) vis enq
      · simp only [hfind]
        obtain ⟨e1, e2⟩ := enqueueInputs_spec r.ins vis enq
        obtain ⟨p1, p2⟩ := ih (needed ++ [u]) (enqueueInputs r.ins vis enq).1
          (enqueueInputs r.ins vis enq).2
        constructor
        · intro g hg
          rcases p1 g hg with hv | he
          · rcases e1 g hv with hv2 | he2
            · exact Or.inl hv2
            · exact Or.inr (p2 g he2)
          · exact Or.inr he
        · intro g hg
          exact p2 g (e2 g hg)

theorem depTraceLoop_ext (records : List IoRecord) :
    ∀ (fuel : Nat) (q vis needed ext : List String) (res : TraceResult),
      depTraceLoop records fuel q vis needed ext = some res →
      (∀ g ∈ vis, producersOf records g = [] → g ∈ ext ∨ g ∈ q) →
      ∀ f ∈ res.visited, producersOf records f = [] → f ∈ res.external := by
  intro fuel
  induction fuel with
  | zero =>
    intro q vis needed ext res h hinv
    cases q with
    | nil =>
      simp only [depTraceLoop, Option.some.injEq] at h
      subst h
      intro f hf hp
      rcases hinv f hf hp with h1 | h1
      · exact h1
      · simp at h1
    | cons a q' => simp [depTraceLoop] at h
  | succ m ih =>
    intro q vis needed ext res h hinv
    cases q with
    | nil =>
      simp only [depTraceLoop, Option.some.injEq] at h
      subst h
      intro f hf hp
      rcases hinv f hf hp with h1 | h1
      · exact h1
      · simp at h1
    | cons f0 rest =>
      rcases hp0 : producersOf records f0 with _ | ⟨p, ps⟩
      · simp only [depTraceLoop, hp0] at h
        apply ih _ _ _ _ _ h
        intro g hg hgp
        rcases hinv g hg hgp with h1 | h1
        · exact Or.inl (mem_insertSet_of_mem _ _ _ h1)
        · rcases List.mem_cons.mp h1 with h2 | h2
          · exact Or.inl (h2 ▸ mem_insertSet_self ext f0)
          · exact Or.inr h2
      · simp only [depTraceLoop, hp0] at h
        apply ih _ _ _ _ _ h
        intro g hg hgp
        obtain ⟨s1, _⟩ := processProds_spec records (p :: ps) needed vis []
        rcases s1 g hg with hv | he
        · rcases hinv g hv hgp with h1 | h1
          · exact Or.inl h1
          · rcases List.mem_cons.mp h1 with h2 | h2
            · rw [h2] at hgp
              rw [hgp] at hp0
              simp at hp0
            · exact Or.inr (List.mem_append_left _ h2)
        · exact Or.inr (List.mem_append_right _ he)

/-- C8: every file visited by the reverse trace that has no producer in the
producer map ends up in the external-inputs result; and dequeuing such a file
adds it to the external inputs while leaving the needed units, the visited
set and the rest of the queue untouched (the branch stops). -/
theorem claim_C8_external_inputs :
    (∀ (records : List IoRecord) (fuel : Nat) (targets : List String) (res : TraceResult),
      depTrace records fuel targets = some res →
      ∀ f ∈ res.visited, producersOf records f = [] → f ∈ res.external) ∧
    (∀ (records : List IoRecord) (fuel : Nat) (f : String)
        (rest vis needed ext : List String),
      producersOf records f = [] →
      depTraceLoop records (fuel + 1) (f :: rest) vis needed ext =
        depTraceLoop records fuel rest vis needed (insertSet ext f)) := by
  constructor
  · intro records fuel targets res h
    apply depTraceLoop_ext records fuel _ _ _ _ res h
    intro g hg _
    exact Or.inr (mem_of_mem_dedupList targets g hg)
  · intro records fuel f rest vis needed ext hp
    simp only [depTraceLoop, hp]

def recordsD : List IoRecord :=
  [⟨"/U1", ["mid.txt"], ["out.txt"]⟩, ⟨"/U2", ["ext.dat"], ["mid.txt"]⟩]

theorem claim_C8_witness :
    ("ext.dat" : String) ∈
      (TraceResult.mk ["/U1", "/U2"] ["ext.dat"] ["out.txt", "mid.txt", "ext.dat"]).external :=
  claim_C8_external_inputs.1 recordsD 10 ["out.txt"]
    ⟨["/U1", "/U2"], ["ext.dat"], ["out.txt", "mid.txt", "ext.dat"]⟩ (by decide)
    "ext.dat" (by decide) (by decide)

def comenvLinesA : List String := ["case ${ENV} in", "dev) BASE=/d;;", "prod) BASE=/p;;", "esac"]

def comenvA : Comenv := parse_all_patterns (mkComenv comenvLinesA [])

def varDictProd : VarTable := get_var_dict_for_env comenvA "ENV=prod"

/-- C5 counterexample: with the shared script of Scenario A and unit
environment ENV=prod, variable lookup does resolve BASE to /p, but the
resource line with the name IN_FILE01 never matches the I/O declaration
pattern RES_PAT (which accepts the generic name IN_FILE only without a digit
suffix), so the line yields a plain assignment and the extractor's input list
is empty — it does not list /p/x.dat. -/
theorem claim_C5_counterexample :
    varDictProd = [("BASE", "/p")] ∧
    shellParseLines ["IN_FILE01=${BASE}/x.dat"]
      = [Proc.ASSIGN "IN_FILE01" "${BASE}/x.dat"] ∧
    "/p/x.dat" ∉
      (execute (shellParseLines ["IN_FILE01=${BASE}/x.dat"]) varDictProd "ENV=prod" "").1 := by
  decide

/-- C5 amended: same scenario with the recognized generic declaration name,
resource line IN_FILE=${BASE}/x.dat: the extractor's result lists /p/x.dat as
the input of the unit. -/
theorem claim_C5_amended :
    (execute (shellParseLines ["IN_FILE=${BASE}/x.dat"]) varDictProd "ENV=prod" "").1
      = ["/p/x.dat"] := by decide

end AjsHelper
